import Mathlib

/-!
Verification of the crypto-tracer event pipeline against its specification.

C strings are embedded as `List Char`; a nullable C string (`char *` that may
be NULL) is embedded as `Option (List Char)`.  Stateful C modules (the output
formatter, the event buffer pool) are embedded as explicit state-passing
functions; emitted bytes are accumulated in a `List Char` / `String`.
Functions are named after the C functions they embed.
-/

/-! ## String primitives shared by several modules -/

/-- Model of C `tolower` restricted to unsigned char: ASCII upper-case letters
map to lower case, every other byte is unchanged. -/
def toLowerAscii (c : Char) : Char :=
  if 'A' ≤ c ∧ c ≤ 'Z' then Char.ofNat (c.toNat + 32) else c

/-- Model of `strncmp(path, pre, strlen(pre)) == 0`: does `p` start with the
literal `pre`? -/
def startsWithL : List Char → List Char → Bool
  | [], _ => true
  | _ :: _, [] => false
  | a :: pre, b :: p => a = b && startsWithL pre p

/-- Model of `strchr(s, '/')` as used by `privacy_filter_path`: the suffix of
`s` beginning at the first `'/'` (the returned pointer includes the slash),
or `none` when `s` has no slash. -/
def dropUntilSlash : List Char → Option (List Char)
  | [] => none
  | c :: rest => if c = '/' then some (c :: rest) else dropUntilSlash rest

/-! ## privacy_filter.c -/

/-- The system-path test of `privacy_filter_path` (rule 3): the twelve
`strncmp` prefix checks of src/src/privacy_filter.c lines 80-91. -/
def isSystemPath (path : List Char) : Bool :=
  startsWithL "/etc/".toList path ||
  startsWithL "/usr/".toList path ||
  startsWithL "/lib/".toList path ||
  startsWithL "/lib64/".toList path ||
  startsWithL "/var/lib/".toList path ||
  startsWithL "/sys/".toList path ||
  startsWithL "/proc/".toList path ||
  startsWithL "/dev/".toList path ||
  startsWithL "/tmp/".toList path ||
  startsWithL "/opt/".toList path ||
  startsWithL "/bin/".toList path ||
  startsWithL "/sbin/".toList path

/-- Embedding of `privacy_filter_path` (src/src/privacy_filter.c:31-97) on a
non-NULL path.  Rule 1: `/home/<user>` redaction, keeping everything from the
slash that ends the user name (`snprintf("/home/USER%s", next_slash)`).
Rule 2: `/root/...` becomes `/home/ROOT` followed by `path + 5` (the suffix
starting at the slash after `root`).  Special case `/root` exactly.  Rule 3
(system paths) and the default case both return the path unchanged. -/
def privacy_filter_path (path : List Char) (redact_enabled : Bool) : List Char :=
  if redact_enabled = false then path
  else if startsWithL "/home/".toList path then
    match dropUntilSlash (path.drop 6) with
    | some tail => "/home/USER".toList ++ tail
    | none => "/home/USER".toList
  else if startsWithL "/root/".toList path then
    "/home/ROOT".toList ++ path.drop 5
  else if path = "/root".toList then
    "/home/ROOT".toList
  else if isSystemPath path then
    path
  else
    path

/-! ## event_processor.c: classification and library-name extraction -/

/-- `file_type_t` from include/crypto_tracer.h.  `certificate` is the
0-valued enumerator (what `memset 0` produces). -/
inductive FileType where
  | certificate
  | private_key
  | keystore
  | unknown
deriving DecidableEq, Repr

/-- Embedding of the static helper `str_ends_with`
(src/src/event_processor.c:603-626): case-insensitive comparison of the final
`suffix.length` characters of `str` against `suffix`. -/
def str_ends_with (str suffix : List Char) : Bool :=
  if str.length < suffix.length then false
  else (str.drop (str.length - suffix.length)).map toLowerAscii == suffix.map toLowerAscii

/-- Embedding of `classify_crypto_file` (src/src/event_processor.c:638-665);
the NULL path returns `FILE_TYPE_UNKNOWN`. -/
def classify_crypto_file : Option (List Char) → FileType
  | none => .unknown
  | some path =>
    if str_ends_with path ".crt".toList ||
       str_ends_with path ".cer".toList ||
       str_ends_with path ".pem".toList then .certificate
    else if str_ends_with path ".key".toList then .private_key
    else if str_ends_with path ".p12".toList ||
            str_ends_with path ".pfx".toList ||
            str_ends_with path ".jks".toList ||
            str_ends_with path ".keystore".toList then .keystore
    else .unknown

/-- Embedding of `extract_library_name` (src/src/event_processor.c:698-734).
NULL input returns NULL.  Otherwise: `strrchr(path, '/')` keeps the part
after the last slash (the whole string when there is no slash), and
`strchr(filename, '.')` truncates at the first dot (no truncation when there
is no dot); `takeWhile` is exactly that `strncpy(name, filename, dot - filename)`. -/
def extract_library_name : Option (List Char) → Option (List Char)
  | none => none
  | some path =>
    let filename := (path.reverse.takeWhile (fun c => c ≠ '/')).reverse
    some (filename.takeWhile (fun c => c ≠ '.'))

/-! ## event_processor.c: substring, glob and filter evaluation -/

/-- Embedding of `substring_match` (src/src/event_processor.c:134-165):
case-insensitive substring search; the empty pattern matches everything and a
pattern longer than the string matches nothing.  The two `List.range` scans
mirror the two C `for` loops over `i` and `j`. -/
def substring_match (pattern str : List Char) : Bool :=
  if pattern.length = 0 then true
  else if str.length < pattern.length then false
  else (List.range (str.length - pattern.length + 1)).any fun i =>
    (List.range pattern.length).all fun j =>
      toLowerAscii (str.getD (i + j) ' ') = toLowerAscii (pattern.getD j ' ')

/-- Modelled from the spec: the libc `fnmatch(pattern, string, FNM_PATHNAME)`
call inside `glob_match` is not part of this repository.  Per the spec,
matching is path-aware: `?` matches one character other than `/`, `*` matches
a (possibly empty) run of characters none of which is `/`, and every other
pattern character matches itself.  The fuel argument dominates the sum of the
two list lengths, which shrinks at every recursive call. -/
def matchGlobAux : Nat → List Char → List Char → Bool
  | 0, _, _ => false
  | fuel + 1, pattern, str =>
    match pattern, str with
    | [], [] => true
    | [], _ :: _ => false
    | c :: ps, s =>
      if c = '*' then
        matchGlobAux fuel ps s ||
          (match s with
           | [] => false
           | d :: ss => if d = '/' then false else matchGlobAux fuel (c :: ps) ss)
      else
        match s with
        | [] => false
        | d :: ss =>
          if c = '?' then decide (d ≠ '/') && matchGlobAux fuel ps ss
          else c = d && matchGlobAux fuel ps ss

/-- Path-aware glob matching on non-NULL strings (model of
`fnmatch(pattern, str, FNM_PATHNAME) == 0`). -/
def fnmatchPathname (pattern str : List Char) : Bool :=
  matchGlobAux (pattern.length + str.length + 1) pattern str

/-- Embedding of `glob_match` (src/src/event_processor.c:118-125): NULL
pattern or NULL string matches nothing, otherwise path-aware `fnmatch`. -/
def glob_match : Option (List Char) → Option (List Char) → Bool
  | some pattern, some str => fnmatchPathname pattern str
  | _, _ => false

/-- The fields of `processed_event_t` (include/crypto_tracer.h).  `char *`
fields are nullable owned strings; `next` is represented by the pool's free
list of indices.  `memset 0` corresponds to `zeroedEvent` below. -/
structure PooledEvent where
  event_type : Option (List Char)
  timestamp : Option (List Char)
  pid : Nat
  uid : Nat
  process : Option (List Char)
  exe : Option (List Char)
  cmdline : Option (List Char)
  file : Option (List Char)
  library : Option (List Char)
  library_name : Option (List Char)
  function_name : Option (List Char)
  exit_code : Int
  file_type : FileType
  flags : Option (List Char)
  result : Int
  in_use : Bool
deriving DecidableEq, Repr

/-- `filter_t` (include/event_processor.h): a tagged union of the four
predicate kinds.  The PID filter stores a C `int`. -/
inductive EventFilter where
  | pid (p : Int)
  | process_name (pattern : List Char)
  | library (pattern : List Char)
  | file_path (pattern : List Char)
deriving DecidableEq

/-- Embedding of the static `filter_matches_event`
(src/src/event_processor.c:175-216).  The PID comparison casts the stored
`int` to `uint32_t` (reduction modulo 2^32); a filter whose field is absent
from the event yields non-match; the library filter tries the library path
first and then the extracted library name. -/
def filter_matches_event (filter : EventFilter) (event : PooledEvent) : Bool :=
  match filter with
  | .pid p => event.pid = (p % 4294967296).toNat
  | .process_name pattern =>
    match event.process with
    | some s => substring_match pattern s
    | none => false
  | .library pattern =>
    (match event.library with
     | some s => substring_match pattern s
     | none => false) ||
    (match event.library_name with
     | some s => substring_match pattern s
     | none => false)
  | .file_path pattern =>
    match event.file with
    | some s => glob_match (some pattern) (some s)
    | none => false

/-- Embedding of `filter_set_matches` (src/src/event_processor.c:227-248):
an empty filter set matches everything, otherwise all filters must match
(short-circuit AND over the linked list). -/
def filter_set_matches (filters : List EventFilter) (event : PooledEvent) : Bool :=
  if filters.length = 0 then true
  else filters.all (fun f => filter_matches_event f event)

/-! ## event_buffer.c: the event pool -/

/-- The all-zero `processed_event_t` produced by `calloc` / `memset 0`:
every pointer NULL, every integer 0, `file_type` the 0-valued enumerator
`FILE_TYPE_CERTIFICATE`, `in_use` false. -/
def zeroedEvent : PooledEvent :=
  { event_type := none, timestamp := none, pid := 0, uid := 0,
    process := none, exe := none, cmdline := none, file := none,
    library := none, library_name := none, function_name := none,
    exit_code := 0, file_type := .certificate, flags := none, result := 0,
    in_use := false }

/-- `event_buffer_pool_t` (include/crypto_tracer.h): the storage array, its
capacity, the in-use counter and the free list.  Slots are addressed by index
into `events`; the intrusive `next` pointers are the order of `free_list`. -/
structure EventBufferPool where
  events : List PooledEvent
  capacity : Nat
  in_use_count : Nat
  free_list : List Nat
deriving DecidableEq

/-- Embedding of `event_buffer_pool_create`: zero capacity falls back to the
default 1000; all slots are zeroed and linked onto the free list front to
back, so slot `capacity - 1` ends up at the head. -/
def event_buffer_pool_create (capacity : Nat) : EventBufferPool :=
  let cap := if capacity = 0 then 1000 else capacity
  { events := List.replicate cap zeroedEvent,
    capacity := cap,
    in_use_count := 0,
    free_list := (List.range cap).reverse }

/-- Embedding of `event_buffer_pool_acquire`: `none` when the free list is
empty (pool exhausted); otherwise pop the head slot, clear it, mark it in
use, and increment the in-use counter.  Returns the acquired index with the
new pool state. -/
def event_buffer_pool_acquire (pool : EventBufferPool) :
    Option (Nat × EventBufferPool) :=
  match pool.free_list with
  | [] => none
  | i :: rest =>
    some (i, { pool with
      events := pool.events.set i { zeroedEvent with in_use := true },
      free_list := rest,
      in_use_count := pool.in_use_count + 1 })

/-- Embedding of `event_buffer_pool_release`: a pointer outside the storage
array is rejected (`event < pool->events || event >= pool->events + capacity`),
as is a slot not marked in use; both rejections return with the pool
untouched.  An accepted release frees every owned string and zeroes the slot
(`memset`), pushes it on the free list and decrements the counter (the C
`size_t` decrement is only reached on a slot counted as in use). -/
def event_buffer_pool_release (pool : EventBufferPool) (i : Nat) : EventBufferPool :=
  if pool.capacity ≤ i then pool
  else
    match pool.events.get? i with
    | none => pool
    | some e =>
      if e.in_use = false then pool
      else
        { pool with
          events := pool.events.set i zeroedEvent,
          free_list := i :: pool.free_list,
          in_use_count := pool.in_use_count - 1 }

/-- An acquire/release history applied to a pool. -/
inductive PoolOp where
  | acq
  | rel (i : Nat)
deriving DecidableEq

/-- Run a sequence of pool operations; a failed acquire leaves the pool as
it was (the driver drops the record). -/
def runPoolOps (pool : EventBufferPool) : List PoolOp → EventBufferPool
  | [] => pool
  | .acq :: ops =>
    match event_buffer_pool_acquire pool with
    | none => runPoolOps pool ops
    | some (_, pool') => runPoolOps pool' ops
  | .rel i :: ops => runPoolOps (event_buffer_pool_release pool i) ops

/-- The structural invariant of a pool: the array has `capacity` slots, the
free list holds distinct in-range indices, a slot is out of use exactly when
it is on the free list, and the free slots and the in-use counter partition
the capacity. -/
def PoolWF (pool : EventBufferPool) : Prop :=
  pool.events.length = pool.capacity ∧
  pool.free_list.Nodup ∧
  (∀ i ∈ pool.free_list, i < pool.capacity) ∧
  (∀ i ∈ List.range pool.capacity,
    ((pool.events.get? i).getD zeroedEvent).in_use = false ↔ i ∈ pool.free_list) ∧
  pool.in_use_count + pool.free_list.length = pool.capacity

instance (pool : EventBufferPool) : Decidable (PoolWF pool) := by
  unfold PoolWF; infer_instance

/-! ## output_formatter.c: formatter lifecycle (array mode) -/

/-- `output_format_t` from include/crypto_tracer.h. -/
inductive OutputFormat where
  | json_stream
  | json_array
  | json_pretty
  | summary
deriving DecidableEq

/-- The mutable fields of `output_formatter_t`; the sink is modelled by
returning emitted bytes alongside the state. -/
structure OutputFormatterState where
  format : OutputFormat
  first_event : Bool
  array_started : Bool
deriving DecidableEq

/-- Embedding of `output_formatter_create` (src/src/output_formatter.c:27-52):
a fresh state with `first_event = true`; in json-array mode it prints the
opening bracket and sets `array_started`. -/
def output_formatter_create (format : OutputFormat) :
    OutputFormatterState × List Char :=
  if format = OutputFormat.json_array then
    ({ format := format, first_event := true, array_started := true }, "[\n".toList)
  else
    ({ format := format, first_event := true, array_started := false }, [])

/-- Embedding of `output_formatter_finalize`
(src/src/output_formatter.c:60-72): in json-array mode with the array
started it prints the closing bracket.  No field of the formatter is
modified by the C function, in particular `array_started` stays set. -/
def output_formatter_finalize (fmt : OutputFormatterState) :
    OutputFormatterState × List Char :=
  if fmt.format = OutputFormat.json_array ∧ fmt.array_started = true then
    (fmt, "\n]\n".toList)
  else
    (fmt, [])

/-- Embedding of `output_formatter_destroy`
(src/src/output_formatter.c:80-89): destruction invokes finalize once more
and frees the state; only the emitted bytes remain. -/
def output_formatter_destroy (fmt : OutputFormatterState) : List Char :=
  (output_formatter_finalize fmt).2

/-! ## Timestamp formatting (output_formatter.c and main.c) -/

/-- Decimal digit character. -/
def digitChar (n : Nat) : Char := Char.ofNat (48 + n)

/-- Decimal digits of `n`, most significant first; fuel-structural
(`fuel = n + 1` always suffices since `n / 10 < n` for `n ≥ 10`). -/
def natDigitsAux : Nat → Nat → List Char
  | 0, _ => []
  | fuel + 1, n =>
    if n < 10 then [digitChar n]
    else natDigitsAux fuel (n / 10) ++ [digitChar (n % 10)]

/-- Decimal rendering of a natural number. -/
def natDigits (n : Nat) : List Char := natDigitsAux (n + 1) n

/-- Model of `snprintf` `%0wd` / `%0wlu`: decimal rendering zero-padded on
the left to at least `w` characters. -/
def padNum (w n : Nat) : List Char :=
  let s := natDigits n
  List.replicate (w - s.length) '0' ++ s

/-- Gregorian leap-year rule. -/
def isLeapYear (y : Nat) : Bool := (y % 4 = 0 && y % 100 ≠ 0) || y % 400 = 0

/-- Days in a calendar year. -/
def daysInYear (y : Nat) : Nat := if isLeapYear y then 366 else 365

/-- Month lengths for a (leap) year. -/
def monthLengths (leap : Bool) : List Nat :=
  [31, if leap then 29 else 28, 31, 30, 31, 30, 31, 31, 30, 31, 30, 31]

/-- Modelled from the spec: `gmtime_r` is libc, not repository code.  Walk
years forward from 1970 subtracting year lengths; fuel-structural (`fuel =
days` suffices: each step consumes at least 365 days). -/
def yearFromDays : Nat → Nat → Nat → Nat × Nat
  | 0, y, d => (y, d)
  | fuel + 1, y, d =>
    if daysInYear y ≤ d then yearFromDays fuel (y + 1) (d - daysInYear y)
    else (y, d)

/-- Split a day-of-year into (1-based month, 0-based day of month). -/
def monthFromYday : List Nat → Nat → Nat → Nat × Nat
  | [], m, d => (m, d)
  | len :: rest, m, d =>
    if d < len then (m, d) else monthFromYday rest (m + 1) (d - len)

/-- UTC calendar fields of an epoch-second count; `year` and `mon` already
carry the `tm_year + 1900` / `tm_mon + 1` adjustments applied at the
`snprintf` call sites. -/
structure TmInfo where
  year : Nat
  mon : Nat
  mday : Nat
  hour : Nat
  minute : Nat
  sec : Nat

/-- Modelled from the spec: libc `gmtime_r` converting non-negative epoch
seconds to UTC calendar fields. -/
def gmtimeModel (secs : Nat) : TmInfo :=
  let days := secs / 86400
  let rem := secs % 86400
  let yd := yearFromDays days 1970 days
  let md := monthFromYday (monthLengths (isLeapYear yd.1)) 1 yd.2
  { year := yd.1, mon := md.1, mday := md.2 + 1,
    hour := rem / 3600, minute := rem % 3600 / 60, sec := rem % 60 }

/-- Embedding of `format_timestamp_iso8601`
(src/src/output_formatter.c:100-129): nanoseconds split into seconds and
microseconds, UTC conversion, then
`"%04d-%02d-%02dT%02d:%02d:%02d.%06luZ"`. -/
def format_timestamp_iso8601 (timestamp_ns : Nat) : List Char :=
  let seconds := timestamp_ns / 1000000000
  let microseconds := timestamp_ns % 1000000000 / 1000
  let t := gmtimeModel seconds
  padNum 4 t.year ++ '-' :: padNum 2 t.mon ++ '-' :: padNum 2 t.mday ++
    'T' :: padNum 2 t.hour ++ ':' :: padNum 2 t.minute ++ ':' :: padNum 2 t.sec ++
    '.' :: padNum 6 microseconds ++ ['Z']

/-- Embedding of the snapshot `generated_at` construction in
`execute_snapshot_command` (src/src/main.c:1394-1410): UTC conversion of
`time(NULL)` and `"%04d-%02d-%02dT%02d:%02d:%02dZ"` — note: no sub-second
fraction. -/
def snapshot_generated_at (now : Nat) : List Char :=
  let t := gmtimeModel now
  padNum 4 t.year ++ '-' :: padNum 2 t.mon ++ '-' :: padNum 2 t.mday ++
    'T' :: padNum 2 t.hour ++ ':' :: padNum 2 t.minute ++ ':' :: padNum 2 t.sec ++
    ['Z']

/-- Number of path separators in a string (used to state path-awareness of
glob matching). -/
def countSlash : List Char → Nat
  | [] => 0
  | c :: rest => (if c = '/' then 1 else 0) + countSlash rest

/-- ASCII decimal digit test. -/
def isDigitChar (c : Char) : Bool := '0' ≤ c ∧ c ≤ '9'

/-- Shape check for `YYYY-MM-DDTHH:MM:SS.ffffffZ`: 27 characters, digits and
fixed punctuation at the required positions. -/
def isIso8601Micro (s : List Char) : Bool :=
  s.length = 27 &&
  ([0,1,2,3,5,6,8,9,11,12,14,15,17,18,20,21,22,23,24,25].all fun i =>
    isDigitChar (s.getD i ' ')) &&
  s.getD 4 ' ' = '-' && s.getD 7 ' ' = '-' && s.getD 10 ' ' = 'T' &&
  s.getD 13 ' ' = ':' && s.getD 16 ' ' = ':' && s.getD 19 ' ' = '.' &&
  s.getD 26 ' ' = 'Z'

/-! ## Helper lemmas: prefixes and slash searching -/

theorem startsWithL_append (pre rest : List Char) :
    startsWithL pre (pre ++ rest) = true := by
  induction pre with
  | nil => rfl
  | cons a pre ih => simp [startsWithL, ih]

theorem startsWithL_eq_true_iff (pre p : List Char) :
    startsWithL pre p = true ↔ ∃ rest, p = pre ++ rest := by
  constructor
  · intro h
    induction pre generalizing p with
    | nil => exact ⟨p, rfl⟩
    | cons a pre ih =>
      cases p with
      | nil => simp [startsWithL] at h
      | cons b p =>
        simp only [startsWithL, Bool.and_eq_true, decide_eq_true_eq] at h
        obtain ⟨rest, hr⟩ := ih p h.2
        exact ⟨rest, by simp [h.1, hr]⟩
  · rintro ⟨rest, rfl⟩
    exact startsWithL_append pre rest

theorem dropUntilSlash_eq_none (l : List Char) (h : ∀ c ∈ l, c ≠ '/') :
    dropUntilSlash l = none := by
  induction l with
  | nil => rfl
  | cons c rest ih =>
    have hc : c ≠ '/' := h c (List.mem_cons_self c rest)
    simp only [dropUntilSlash, if_neg hc]
    exact ih fun d hd => h d (List.mem_cons_of_mem c hd)

theorem dropUntilSlash_append (u v : List Char) (h : ∀ c ∈ u, c ≠ '/') :
    dropUntilSlash (u ++ v) = dropUntilSlash v := by
  induction u with
  | nil => rfl
  | cons c rest ih =>
    have hc : c ≠ '/' := h c (List.mem_cons_self c rest)
    simp only [List.cons_append, dropUntilSlash, if_neg hc]
    exact ih fun d hd => h d (List.mem_cons_of_mem c hd)

theorem dropUntilSlash_eq_some (l t : List Char) (h : dropUntilSlash l = some t) :
    ∃ r, t = '/' :: r := by
  induction l with
  | nil => simp [dropUntilSlash] at h
  | cons c rest ih =>
    simp only [dropUntilSlash] at h
    by_cases hc : c = '/'
    · rw [if_pos hc] at h
      refine ⟨rest, ?_⟩
      have h' := h.symm
      simp only [Option.some.injEq] at h'
      rw [h', hc]
    · rw [if_neg hc] at h
      exact ih h

/-! ## Helper lemmas: the privacy filter -/

theorem privacy_filter_path_verbatim (p : List Char)
    (hh : startsWithL "/home/".toList p = false)
    (hr : startsWithL "/root/".toList p = false)
    (hr2 : p ≠ "/root".toList) :
    privacy_filter_path p true = p := by
  unfold privacy_filter_path
  rw [if_neg (by decide), hh, if_neg (by decide), hr, if_neg (by decide),
    if_neg hr2]
  exact ite_self p

theorem privacy_filter_path_home_slash (u rest : List Char)
    (h : ∀ c ∈ u, c ≠ '/') :
    privacy_filter_path ("/home/".toList ++ u ++ '/' :: rest) true =
      "/home/USER/".toList ++ rest := by
  have hstart : startsWithL "/home/".toList ("/home/".toList ++ u ++ '/' :: rest) = true := by
    rw [List.append_assoc]; exact startsWithL_append _ _
  have hdrop : ("/home/".toList ++ u ++ '/' :: rest).drop 6 = u ++ '/' :: rest := by
    rw [List.append_assoc]; rfl
  have hslash : dropUntilSlash (u ++ '/' :: rest) = some ('/' :: rest) := by
    rw [dropUntilSlash_append u ('/' :: rest) h]; rfl
  unfold privacy_filter_path
  rw [if_neg (by decide), hstart, if_pos rfl, hdrop, hslash]
  rfl

theorem privacy_filter_path_home_bare (u : List Char) (h : ∀ c ∈ u, c ≠ '/') :
    privacy_filter_path ("/home/".toList ++ u) true = "/home/USER".toList := by
  have hstart : startsWithL "/home/".toList ("/home/".toList ++ u) = true :=
    startsWithL_append _ _
  have hdrop : ("/home/".toList ++ u).drop 6 = u := rfl
  have hslash : dropUntilSlash u = none := dropUntilSlash_eq_none u h
  unfold privacy_filter_path
  rw [if_neg (by decide), hstart, if_pos rfl, hdrop, hslash]

theorem privacy_filter_path_root_slash (rest : List Char) :
    privacy_filter_path ("/root/".toList ++ rest) true =
      "/home/ROOT/".toList ++ rest := by
  have hh : startsWithL "/home/".toList ("/root/".toList ++ rest) = false := by
    simp +decide [startsWithL]
  have hstart : startsWithL "/root/".toList ("/root/".toList ++ rest) = true :=
    startsWithL_append _ _
  have hdrop : ("/root/".toList ++ rest).drop 5 = '/' :: rest := rfl
  unfold privacy_filter_path
  rw [if_neg (by decide), hh, if_neg (by decide), hstart, if_pos rfl, hdrop]
  rfl

theorem privacy_filter_path_idem_of_not_root (p : List Char)
    (hr : startsWithL "/root/".toList p = false)
    (hr2 : p ≠ "/root".toList) :
    privacy_filter_path (privacy_filter_path p true) true =
      privacy_filter_path p true := by
  cases hh : startsWithL "/home/".toList p with
  | false =>
    rw [privacy_filter_path_verbatim p hh hr hr2]
    exact privacy_filter_path_verbatim p hh hr hr2
  | true =>
    obtain ⟨t, rfl⟩ := (startsWithL_eq_true_iff _ _).mp hh
    have hstart := startsWithL_append "/home/".toList t
    have hdrop : ("/home/".toList ++ t).drop 6 = t := rfl
    cases hd : dropUntilSlash t with
    | none =>
      have h1 : privacy_filter_path ("/home/".toList ++ t) true = "/home/USER".toList := by
        unfold privacy_filter_path
        rw [if_neg (by decide), hstart, if_pos rfl, hdrop, hd]
      rw [h1]
      decide
    | some t' =>
      obtain ⟨r, rfl⟩ := dropUntilSlash_eq_some t t' hd
      have h1 : privacy_filter_path ("/home/".toList ++ t) true =
          "/home/USER".toList ++ '/' :: r := by
        unfold privacy_filter_path
        rw [if_neg (by decide), hstart, if_pos rfl, hdrop, hd]
      rw [h1]
      have h2 : "/home/USER".toList ++ '/' :: r =
          "/home/".toList ++ "USER".toList ++ '/' :: r := rfl
      rw [h2, privacy_filter_path_home_slash "USER".toList r (by decide)]
      rfl

/-! ## Claim C1: redaction idempotence -/

/-- Claim C1, counterexample: redaction is not idempotent on the code.  The
path `/root` redacts to `/home/ROOT`, and redacting `/home/ROOT` again
applies the `/home/<user>` rule, yielding `/home/USER`. -/
theorem claim_C1_counterexample :
    privacy_filter_path (privacy_filter_path "/root".toList true) true ≠
      privacy_filter_path "/root".toList true := by decide

/-- Claim C1 (amended): redaction is idempotent for every path that does not
begin with `/root/` and is not exactly `/root` (on `/root` paths a second
redaction turns `/home/ROOT...` into `/home/USER...`), and every path
beginning with a system prefix such as `/etc/`, `/usr/`, `/lib/` is returned
unchanged by redaction. -/
theorem claim_C1_redaction_idempotent_amended :
    (∀ p : List Char, startsWithL "/root/".toList p = false →
      p ≠ "/root".toList →
      privacy_filter_path (privacy_filter_path p true) true =
        privacy_filter_path p true) ∧
    (∀ rest : List Char,
      privacy_filter_path ("/etc/".toList ++ rest) true = "/etc/".toList ++ rest ∧
      privacy_filter_path ("/usr/".toList ++ rest) true = "/usr/".toList ++ rest ∧
      privacy_filter_path ("/lib/".toList ++ rest) true = "/lib/".toList ++ rest) := by
  constructor
  · exact privacy_filter_path_idem_of_not_root
  · intro rest
    refine ⟨?_, ?_, ?_⟩ <;>
      refine privacy_filter_path_verbatim _ (by simp +decide [startsWithL])
        (by simp +decide [startsWithL]) (fun h => ?_)
    · exact absurd (show ('e' : Char) = 'r' from congrArg (fun l => l.getD 1 ' ') h)
        (by decide)
    · exact absurd (show ('u' : Char) = 'r' from congrArg (fun l => l.getD 1 ' ') h)
        (by decide)
    · exact absurd (show ('l' : Char) = 'r' from congrArg (fun l => l.getD 1 ' ') h)
        (by decide)

/-- Claim C1 witness: the amended theorem applied at the concrete paths
`/etc/passwd` (idempotence clause) and `/etc/` ++ `ssl` (fixed-point
clause). -/
theorem claim_C1_witness :
    privacy_filter_path (privacy_filter_path "/etc/passwd".toList true) true =
      privacy_filter_path "/etc/passwd".toList true ∧
    privacy_filter_path ("/etc/".toList ++ "ssl".toList) true =
      "/etc/".toList ++ "ssl".toList :=
  ⟨claim_C1_redaction_idempotent_amended.1 "/etc/passwd".toList (by decide) (by decide),
   (claim_C1_redaction_idempotent_amended.2 "ssl".toList).1⟩

/-! ## Claim C8: the redaction map -/

/-- Claim C8: with redaction enabled, `/home/<anything>/REST` maps to
`/home/USER/REST`, `/home/<anything>` to `/home/USER`, `/root/REST` to
`/home/ROOT/REST`, `/root` to `/home/ROOT`, and every other path is returned
verbatim; with redaction disabled the function is the identity.  The four
concrete examples of the spec are included. -/
theorem claim_C8_privacy_filter_path :
    (privacy_filter_path "/home/alice/x.pem".toList true = "/home/USER/x.pem".toList ∧
     privacy_filter_path "/root/.ssh/k".toList true = "/home/ROOT/.ssh/k".toList ∧
     privacy_filter_path "/root".toList true = "/home/ROOT".toList ∧
     privacy_filter_path "/etc/ssl/x.pem".toList true = "/etc/ssl/x.pem".toList) ∧
    (∀ p : List Char, privacy_filter_path p false = p) ∧
    (∀ u rest : List Char, (∀ c ∈ u, c ≠ '/') →
      privacy_filter_path ("/home/".toList ++ u ++ '/' :: rest) true =
        "/home/USER/".toList ++ rest) ∧
    (∀ u : List Char, (∀ c ∈ u, c ≠ '/') →
      privacy_filter_path ("/home/".toList ++ u) true = "/home/USER".toList) ∧
    (∀ rest : List Char,
      privacy_filter_path ("/root/".toList ++ rest) true =
        "/home/ROOT/".toList ++ rest) ∧
    (∀ p : List Char, startsWithL "/home/".toList p = false →
      startsWithL "/root/".toList p = false → p ≠ "/root".toList →
      privacy_filter_path p true = p) :=
  ⟨by decide, fun p => rfl, privacy_filter_path_home_slash,
   privacy_filter_path_home_bare, privacy_filter_path_root_slash,
   privacy_filter_path_verbatim⟩

/-- Claim C8 witness: the home-redaction clause applied at user `alice` and
remainder `x.pem`, and the verbatim clause applied at `/etc/hosts`. -/
theorem claim_C8_witness :
    privacy_filter_path ("/home/".toList ++ "alice".toList ++ '/' :: "x.pem".toList) true =
      "/home/USER/".toList ++ "x.pem".toList ∧
    privacy_filter_path "/etc/hosts".toList true = "/etc/hosts".toList :=
  ⟨claim_C8_privacy_filter_path.2.2.1 "alice".toList "x.pem".toList (by decide),
   claim_C8_privacy_filter_path.2.2.2.2.2 "/etc/hosts".toList (by decide) (by decide)
     (by decide)⟩

/-! ## Claim C3: array-mode finalization -/

/-- Claim C3, counterexample: finalization of the array format is not
idempotent.  `output_formatter_finalize` never clears `array_started`, so a
second call (here: the one `output_formatter_destroy` performs) appends the
closing bracket a second time; the total output of create–finalize–destroy
differs from the total output of create–finalize. -/
theorem claim_C3_counterexample :
    (output_formatter_create OutputFormat.json_array).2 ++
        (output_formatter_finalize (output_formatter_create OutputFormat.json_array).1).2 ++
        output_formatter_destroy
          (output_formatter_finalize (output_formatter_create OutputFormat.json_array).1).1 ≠
      (output_formatter_create OutputFormat.json_array).2 ++
        (output_formatter_finalize (output_formatter_create OutputFormat.json_array).1).2 := by
  decide

/-- Claim C3 (amended): finalization of the array format is not idempotent:
every call of `output_formatter_finalize` on a json-array formatter whose
array has been started emits the closing bracket again and leaves the state
(in particular `array_started`) unchanged, so finalize followed by destroy
(which finalizes once more) emits the closing bracket twice; a formatter in
any other state emits nothing on finalize. -/
theorem claim_C3_finalize_amended :
    (∀ s : OutputFormatterState, s.format = OutputFormat.json_array →
      s.array_started = true →
      output_formatter_finalize s = (s, "\n]\n".toList)) ∧
    (∀ s : OutputFormatterState,
      s.format ≠ OutputFormat.json_array ∨ s.array_started = false →
      output_formatter_finalize s = (s, [])) ∧
    ((output_formatter_create OutputFormat.json_array).2 ++
        (output_formatter_finalize (output_formatter_create OutputFormat.json_array).1).2 ++
        output_formatter_destroy
          (output_formatter_finalize (output_formatter_create OutputFormat.json_array).1).1 =
      "[\n\n]\n\n]\n".toList) := by
  refine ⟨?_, ?_, by decide⟩
  · intro s h1 h2
    simp [output_formatter_finalize, h1, h2]
  · intro s h
    have : ¬(s.format = OutputFormat.json_array ∧ s.array_started = true) := by
      rcases h with h | h
      · exact fun hc => h hc.1
      · exact fun hc => by rw [h] at hc; exact Bool.false_ne_true hc.2
    simp [output_formatter_finalize, this]

/-- Claim C3 witness: the amended theorem applied to the state produced by
creating an array-mode formatter (array started, nothing written yet). -/
theorem claim_C3_witness :
    output_formatter_finalize
        { format := OutputFormat.json_array, first_event := true,
          array_started := true } =
      ({ format := OutputFormat.json_array, first_event := true,
         array_started := true }, "\n]\n".toList) :=
  claim_C3_finalize_amended.1
    { format := OutputFormat.json_array, first_event := true, array_started := true }
    rfl rfl

/-! ## Claim C2: timestamp shapes -/

/-- Claim C2 is false of the code: event timestamps
(`format_timestamp_iso8601`) do carry the six-digit sub-second fraction, but
the snapshot document's `generated_at` built in `execute_snapshot_command`
(src/src/main.c:1394-1410) uses the format string
`"%04d-%02d-%02dT%02d:%02d:%02dZ"` and therefore carries no fraction at all,
in contradiction with JSON_OUTPUT_EXAMPLES.md, which documents the snapshot
field as `2021-01-01T00:00:00.000000Z`.  Evaluated at that documented moment
(epoch second 1609459200): the snapshot string is `2021-01-01T00:00:00Z` and
fails the `YYYY-MM-DDTHH:MM:SS.ffffffZ` shape check, while the event
timestamp at the same moment has the documented shape. -/
theorem claim_C2_snapshot_timestamp_lacks_fraction :
    snapshot_generated_at 1609459200 = "2021-01-01T00:00:00Z".toList ∧
    isIso8601Micro (snapshot_generated_at 1609459200) = false ∧
    format_timestamp_iso8601 1609459200000000000 =
      "2021-01-01T00:00:00.000000Z".toList ∧
    isIso8601Micro (format_timestamp_iso8601 1609459200000000000) = true := by
  refine ⟨by decide, by decide, by decide, by decide⟩

/-! ## Helper lemmas: takeWhile and the last path segment -/

theorem takeWhile_of_all (pred : Char → Bool) (l : List Char)
    (h : ∀ c ∈ l, pred c = true) : l.takeWhile pred = l := by
  induction l with
  | nil => rfl
  | cons c rest ih =>
    rw [List.takeWhile_cons, if_pos (h c (List.mem_cons_self c rest))]
    rw [ih fun d hd => h d (List.mem_cons_of_mem c hd)]

theorem takeWhile_append_of_all (pred : Char → Bool) (u v : List Char)
    (h : ∀ c ∈ u, pred c = true) :
    (u ++ v).takeWhile pred = u ++ v.takeWhile pred := by
  induction u with
  | nil => rfl
  | cons c rest ih =>
    rw [List.cons_append, List.takeWhile_cons, if_pos (h c (List.mem_cons_self c rest))]
    rw [ih fun d hd => h d (List.mem_cons_of_mem c hd), List.cons_append]

theorem lastSegment_append (a b : List Char) (h : ∀ c ∈ b, c ≠ '/') :
    ((a ++ '/' :: b).reverse.takeWhile (fun c => c ≠ '/')).reverse = b := by
  rw [List.reverse_append, List.reverse_cons, List.append_assoc]
  rw [takeWhile_append_of_all _ b.reverse _
    (fun c hc => by simpa using h c (List.mem_reverse.mp hc))]
  have hstop : (['/'] ++ a.reverse).takeWhile (fun c => decide (c ≠ '/')) = [] := by
    simp [List.takeWhile_cons]
  rw [hstop, List.append_nil, List.reverse_reverse]

theorem lastSegment_of_no_slash (p : List Char) (h : ∀ c ∈ p, c ≠ '/') :
    (p.reverse.takeWhile (fun c => c ≠ '/')).reverse = p := by
  rw [takeWhile_of_all _ p.reverse
    (fun c hc => by simpa using h c (List.mem_reverse.mp hc))]
  exact List.reverse_reverse p

/-! ## Claim C4: library-name extraction -/

/-- Claim C4: `extract_library_name` takes the final path segment (the part
after the last `/`), truncates it at the first `.`, preserves bare names
that contain no path, and returns none on empty (NULL) input; with the three
concrete examples of the spec.  (An absent C string is the `none` input; the
C function returns NULL exactly for NULL input.) -/
theorem claim_C4_extract_library_name :
    (extract_library_name (some "/usr/lib/libssl.so.1.1".toList) = some "libssl".toList ∧
     extract_library_name (some "libsodium.so.23".toList) = some "libsodium".toList ∧
     extract_library_name (some "/usr/lib/libnss3".toList) = some "libnss3".toList) ∧
    extract_library_name none = none ∧
    (∀ a b : List Char, (∀ c ∈ b, c ≠ '/') →
      extract_library_name (some (a ++ '/' :: b)) =
        some (b.takeWhile (fun c => c ≠ '.'))) ∧
    (∀ p : List Char, (∀ c ∈ p, c ≠ '/') →
      extract_library_name (some p) = some (p.takeWhile (fun c => c ≠ '.'))) ∧
    (∀ p : List Char, (∀ c ∈ p, c ≠ '/') → (∀ c ∈ p, c ≠ '.') →
      extract_library_name (some p) = some p) := by
  refine ⟨by decide, rfl, ?_, ?_, ?_⟩
  · intro a b h
    show some ((((a ++ '/' :: b).reverse.takeWhile (fun c => c ≠ '/')).reverse).takeWhile
      (fun c => c ≠ '.')) = _
    rw [lastSegment_append a b h]
  · intro p h
    show some (((p.reverse.takeWhile (fun c => c ≠ '/')).reverse).takeWhile
      (fun c => c ≠ '.')) = _
    rw [lastSegment_of_no_slash p h]
  · intro p h hdot
    show some (((p.reverse.takeWhile (fun c => c ≠ '/')).reverse).takeWhile
      (fun c => c ≠ '.')) = _
    rw [lastSegment_of_no_slash p h,
      takeWhile_of_all _ p (fun c hc => by simpa using hdot c hc)]

/-- Claim C4 witness: the last-segment clause applied at directory
`/usr/lib` and file name `libssl.so.1.1`, and the bare-name clause at
`libnss3`. -/
theorem claim_C4_witness :
    extract_library_name (some ("/usr/lib".toList ++ '/' :: "libssl.so.1.1".toList)) =
      some ("libssl.so.1.1".toList.takeWhile (fun c => c ≠ '.')) ∧
    extract_library_name (some "libnss3".toList) = some "libnss3".toList :=
  ⟨claim_C4_extract_library_name.2.2.1 "/usr/lib".toList "libssl.so.1.1".toList
     (by decide),
   claim_C4_extract_library_name.2.2.2.2 "libnss3".toList (by decide) (by decide)⟩

/-! ## Claim C6: filter-set evaluation -/

/-- Claim C6: filter-set evaluation decomposes as a conjunction.  The
embedding is a pure function, so `filter_set_matches` is deterministic by
construction; the empty filter set matches every event, and a two-filter set
matches exactly when each singleton set matches. -/
theorem claim_C6_filter_set_conjunction :
    (∀ e : PooledEvent, filter_set_matches [] e = true) ∧
    (∀ (f1 f2 : EventFilter) (e : PooledEvent),
      filter_set_matches [f1, f2] e =
        (filter_set_matches [f1] e && filter_set_matches [f2] e)) := by
  constructor
  · intro e
    rfl
  · intro f1 f2 e
    show (filter_matches_event f1 e && (filter_matches_event f2 e && true)) =
      ((filter_matches_event f1 e && true) && (filter_matches_event f2 e && true))
    cases filter_matches_event f1 e <;> cases filter_matches_event f2 e <;> rfl

/-! ## Helper lemmas: case-insensitive suffixes -/

theorem str_ends_with_iff (str suffix : List Char) :
    str_ends_with str suffix = true ↔
      suffix.length ≤ str.length ∧
      (str.drop (str.length - suffix.length)).map toLowerAscii =
        suffix.map toLowerAscii := by
  unfold str_ends_with
  by_cases h : str.length < suffix.length
  · rw [if_pos h]
    constructor
    · intro hx
      exact (Bool.false_ne_true hx).elim
    · intro hx
      exact absurd hx.1 (by omega)
  · rw [if_neg h]
    simp only [beq_iff_eq]
    exact ⟨fun he => ⟨by omega, he⟩, fun he => he.2⟩

theorem ends_with_unique_of_length_eq (p a b : List Char)
    (ha : str_ends_with p a = true) (hb : str_ends_with p b = true)
    (hl : a.length = b.length) :
    a.map toLowerAscii = b.map toLowerAscii := by
  obtain ⟨-, ha2⟩ := (str_ends_with_iff p a).mp ha
  obtain ⟨-, hb2⟩ := (str_ends_with_iff p b).mp hb
  rw [← ha2, ← hb2, hl]

theorem ends_with_keystore_last4 (p : List Char)
    (h : str_ends_with p ".keystore".toList = true) :
    (p.drop (p.length - 4)).map toLowerAscii = "tore".toList := by
  obtain ⟨hlen, h2⟩ := (str_ends_with_iff p ".keystore".toList).mp h
  have hlen9 : (".keystore".toList : List Char).length = 9 := rfl
  rw [hlen9] at hlen
  have hd : p.drop (p.length - 4) = (p.drop (p.length - 9)).drop 5 := by
    rw [List.drop_drop]
    congr 1
    omega
  rw [hlen9] at h2
  rw [hd, List.map_drop, h2]
  rfl

theorem not_ends4_of_ends_keystore (p a : List Char)
    (h : str_ends_with p ".keystore".toList = true)
    (hlen : a.length = 4) (hne : a.map toLowerAscii ≠ "tore".toList) :
    str_ends_with p a = false := by
  by_contra hx
  rw [Bool.not_eq_false] at hx
  obtain ⟨-, h2⟩ := (str_ends_with_iff p a).mp hx
  rw [hlen] at h2
  exact hne (h2.symm.trans (ends_with_keystore_last4 p h))

theorem ends_with_excludes (p a b : List Char)
    (ha : str_ends_with p a = true) (hl : a.length = b.length)
    (hne : a.map toLowerAscii ≠ b.map toLowerAscii) :
    str_ends_with p b = false := by
  by_contra hx
  rw [Bool.not_eq_false] at hx
  exact hne (ends_with_unique_of_length_eq p a b ha hx hl)

/-! ## Claim C7: file classification -/

/-- Claim C7: file classification is decided by the last extension,
case-insensitively: `.pem`, `.crt`, `.cer` give certificate, `.key` gives
private_key, `.p12`, `.pfx`, `.jks`, `.keystore` give keystore, and every
path carrying none of these suffixes gives unknown; with the four concrete
examples of the spec. -/
theorem claim_C7_classify_crypto_file :
    (classify_crypto_file (some "/etc/ssl/cert.pem".toList) = .certificate ∧
     classify_crypto_file (some "/E.KEY".toList) = .private_key ∧
     classify_crypto_file (some "/a/b/c.p12".toList) = .keystore ∧
     classify_crypto_file (some "/etc/hosts".toList) = .unknown) ∧
    (∀ p : List Char,
      (str_ends_with p ".pem".toList = true ∨ str_ends_with p ".crt".toList = true ∨
        str_ends_with p ".cer".toList = true) →
      classify_crypto_file (some p) = .certificate) ∧
    (∀ p : List Char, str_ends_with p ".key".toList = true →
      classify_crypto_file (some p) = .private_key) ∧
    (∀ p : List Char,
      (str_ends_with p ".p12".toList = true ∨ str_ends_with p ".pfx".toList = true ∨
        str_ends_with p ".jks".toList = true ∨
        str_ends_with p ".keystore".toList = true) →
      classify_crypto_file (some p) = .keystore) ∧
    (∀ p : List Char,
      str_ends_with p ".pem".toList = false → str_ends_with p ".crt".toList = false →
      str_ends_with p ".cer".toList = false → str_ends_with p ".key".toList = false →
      str_ends_with p ".p12".toList = false → str_ends_with p ".pfx".toList = false →
      str_ends_with p ".jks".toList = false →
      str_ends_with p ".keystore".toList = false →
      classify_crypto_file (some p) = .unknown) := by
  refine ⟨by decide, ?_, ?_, ?_, ?_⟩
  · intro p h
    rcases h with h | h | h
    · have h' : str_ends_with p ['.', 'p', 'e', 'm'] = true := h
      simp [classify_crypto_file, h']
    · have h' : str_ends_with p ['.', 'c', 'r', 't'] = true := h
      simp [classify_crypto_file, h']
    · have h' : str_ends_with p ['.', 'c', 'e', 'r'] = true := h
      simp [classify_crypto_file, h']
  · intro p h
    have h' : str_ends_with p ['.', 'k', 'e', 'y'] = true := h
    have hcrt : str_ends_with p ['.', 'c', 'r', 't'] = false :=
      ends_with_excludes p ".key".toList ".crt".toList h rfl (by decide)
    have hcer : str_ends_with p ['.', 'c', 'e', 'r'] = false :=
      ends_with_excludes p ".key".toList ".cer".toList h rfl (by decide)
    have hpem : str_ends_with p ['.', 'p', 'e', 'm'] = false :=
      ends_with_excludes p ".key".toList ".pem".toList h rfl (by decide)
    simp [classify_crypto_file, h', hcrt, hcer, hpem]
  · intro p h
    rcases h with h | h | h | h
    · have h' : str_ends_with p ['.', 'p', '1', '2'] = true := h
      have hcrt : str_ends_with p ['.', 'c', 'r', 't'] = false :=
        ends_with_excludes p ".p12".toList ".crt".toList h rfl (by decide)
      have hcer : str_ends_with p ['.', 'c', 'e', 'r'] = false :=
        ends_with_excludes p ".p12".toList ".cer".toList h rfl (by decide)
      have hpem : str_ends_with p ['.', 'p', 'e', 'm'] = false :=
        ends_with_excludes p ".p12".toList ".pem".toList h rfl (by decide)
      have hkey : str_ends_with p ['.', 'k', 'e', 'y'] = false :=
        ends_with_excludes p ".p12".toList ".key".toList h rfl (by decide)
      simp [classify_crypto_file, h', hcrt, hcer, hpem, hkey]
    · have h' : str_ends_with p ['.', 'p', 'f', 'x'] = true := h
      have hcrt : str_ends_with p ['.', 'c', 'r', 't'] = false :=
        ends_with_excludes p ".pfx".toList ".crt".toList h rfl (by decide)
      have hcer : str_ends_with p ['.', 'c', 'e', 'r'] = false :=
        ends_with_excludes p ".pfx".toList ".cer".toList h rfl (by decide)
      have hpem : str_ends_with p ['.', 'p', 'e', 'm'] = false :=
        ends_with_excludes p ".pfx".toList ".pem".toList h rfl (by decide)
      have hkey : str_ends_with p ['.', 'k', 'e', 'y'] = false :=
        ends_with_excludes p ".pfx".toList ".key".toList h rfl (by decide)
      simp [classify_crypto_file, h', hcrt, hcer, hpem, hkey]
    · have h' : str_ends_with p ['.', 'j', 'k', 's'] = true := h
      have hcrt : str_ends_with p ['.', 'c', 'r', 't'] = false :=
        ends_with_excludes p ".jks".toList ".crt".toList h rfl (by decide)
      have hcer : str_ends_with p ['.', 'c', 'e', 'r'] = false :=
        ends_with_excludes p ".jks".toList ".cer".toList h rfl (by decide)
      have hpem : str_ends_with p ['.', 'p', 'e', 'm'] = false :=
        ends_with_excludes p ".jks".toList ".pem".toList h rfl (by decide)
      have hkey : str_ends_with p ['.', 'k', 'e', 'y'] = false :=
        ends_with_excludes p ".jks".toList ".key".toList h rfl (by decide)
      simp [classify_crypto_file, h', hcrt, hcer, hpem, hkey]
    · have h' : str_ends_with p ['.', 'k', 'e', 'y', 's', 't', 'o', 'r', 'e'] = true := h
      have hcrt : str_ends_with p ['.', 'c', 'r', 't'] = false :=
        not_ends4_of_ends_keystore p ".crt".toList h rfl (by decide)
      have hcer : str_ends_with p ['.', 'c', 'e', 'r'] = false :=
        not_ends4_of_ends_keystore p ".cer".toList h rfl (by decide)
      have hpem : str_ends_with p ['.', 'p', 'e', 'm'] = false :=
        not_ends4_of_ends_keystore p ".pem".toList h rfl (by decide)
      have hkey : str_ends_with p ['.', 'k', 'e', 'y'] = false :=
        not_ends4_of_ends_keystore p ".key".toList h rfl (by decide)
      simp [classify_crypto_file, h', hcrt, hcer, hpem, hkey]
  · intro p h1 h2 h3 h4 h5 h6 h7 h8
    have h1' : str_ends_with p ['.', 'p', 'e', 'm'] = false := h1
    have h2' : str_ends_with p ['.', 'c', 'r', 't'] = false := h2
    have h3' : str_ends_with p ['.', 'c', 'e', 'r'] = false := h3
    have h4' : str_ends_with p ['.', 'k', 'e', 'y'] = false := h4
    have h5' : str_ends_with p ['.', 'p', '1', '2'] = false := h5
    have h6' : str_ends_with p ['.', 'p', 'f', 'x'] = false := h6
    have h7' : str_ends_with p ['.', 'j', 'k', 's'] = false := h7
    have h8' : str_ends_with p ['.', 'k', 'e', 'y', 's', 't', 'o', 'r', 'e'] = false := h8
    simp [classify_crypto_file, h1', h2', h3', h4', h5', h6', h7', h8']

/-- Claim C7 witness: the certificate clause applied at `/x.PeM` (mixed
case) and the keystore clause at `/y.keystore`. -/
theorem claim_C7_witness :
    classify_crypto_file (some "/x.PeM".toList) = .certificate ∧
    classify_crypto_file (some "/y.keystore".toList) = .keystore :=
  ⟨claim_C7_classify_crypto_file.2.1 "/x.PeM".toList (Or.inl (by decide)),
   claim_C7_classify_crypto_file.2.2.2.1 "/y.keystore".toList
     (Or.inr (Or.inr (Or.inr (by decide))))⟩

/-! ## Helper lemmas: path-aware glob matching -/

theorem matchGlobAux_countSlash :
    ∀ (fuel : Nat) (p s : List Char), matchGlobAux fuel p s = true →
      countSlash p = countSlash s := by
  intro fuel
  induction fuel with
  | zero =>
    intro p s h
    exact absurd h (by simp [matchGlobAux])
  | succ fuel ih =>
    intro p s h
    cases p with
    | nil =>
      cases s with
      | nil => rfl
      | cons d ss => simp [matchGlobAux] at h
    | cons c ps =>
      by_cases hc : c = '*'
      · subst hc
        cases s with
        | nil =>
          have hunfold : matchGlobAux (fuel + 1) ('*' :: ps) [] =
              (matchGlobAux fuel ps [] || false) := rfl
          rw [hunfold, Bool.or_false] at h
          simp [countSlash, ih ps [] h]
        | cons d ss =>
          have hunfold : matchGlobAux (fuel + 1) ('*' :: ps) (d :: ss) =
              (matchGlobAux fuel ps (d :: ss) ||
                (if d = '/' then false else matchGlobAux fuel ('*' :: ps) ss)) := rfl
          rw [hunfold, Bool.or_eq_true] at h
          rcases h with h1 | h2
          · simp [countSlash, ih ps (d :: ss) h1]
          · by_cases hd : d = '/'
            · rw [if_pos hd] at h2
              exact absurd h2 (by simp)
            · rw [if_neg hd] at h2
              have hrec := ih ('*' :: ps) ss h2
              simp only [countSlash] at hrec ⊢
              simp [hd] at hrec ⊢
              omega
      · cases s with
        | nil =>
          have hunfold : matchGlobAux (fuel + 1) (c :: ps) [] = false := by
            simp [matchGlobAux, hc]
          rw [hunfold] at h
          exact absurd h (by simp)
        | cons d ss =>
          by_cases hq : c = '?'
          · subst hq
            have hunfold : matchGlobAux (fuel + 1) ('?' :: ps) (d :: ss) =
                (decide (d ≠ '/') && matchGlobAux fuel ps ss) := rfl
            rw [hunfold, Bool.and_eq_true] at h
            have hd : d ≠ '/' := by simpa using h.1
            have hrec := ih ps ss h.2
            simp [countSlash, hd, hrec]
          · have hunfold : matchGlobAux (fuel + 1) (c :: ps) (d :: ss) =
                (c = d && matchGlobAux fuel ps ss) := by
              simp [matchGlobAux, hc, hq]
            rw [hunfold, Bool.and_eq_true] at h
            have hcd : c = d := by simpa using h.1
            have hrec := ih ps ss h.2
            subst hcd
            simp [countSlash, hrec]

/-! ## Claim C9: path-aware glob matching -/

/-- Claim C9: glob matching of file-path filters is path-aware.  Since `/`
in the string can only ever be consumed by a literal `/` in the pattern
(wildcards refuse it), every successful match pairs the pattern's separators
with the string's: the two slash counts agree.  The spec's concrete pair is
included: `/etc/ssl/*.pem` matches `/etc/ssl/x.pem` and does not match
`/etc/ssl/sub/x.pem`. -/
theorem claim_C9_glob_path_aware :
    glob_match (some "/etc/ssl/*.pem".toList) (some "/etc/ssl/x.pem".toList) = true ∧
    glob_match (some "/etc/ssl/*.pem".toList) (some "/etc/ssl/sub/x.pem".toList) = false ∧
    (∀ pattern str : List Char, fnmatchPathname pattern str = true →
      countSlash pattern = countSlash str) := by
  refine ⟨by decide, by decide, ?_⟩
  intro pattern str h
  exact matchGlobAux_countSlash _ pattern str h

/-- Claim C9 witness: the slash-count clause applied at the spec's matching
pair. -/
theorem claim_C9_witness :
    countSlash "/etc/ssl/*.pem".toList = countSlash "/etc/ssl/x.pem".toList :=
  claim_C9_glob_path_aware.2.2 "/etc/ssl/*.pem".toList "/etc/ssl/x.pem".toList
    (by decide)

/-! ## Helper lemmas: lists and the event pool -/

theorem list_get?_set_self {α : Type} (l : List α) (i : Nat) (a : α)
    (h : i < l.length) : (l.set i a).get? i = some a := by
  induction l generalizing i with
  | nil => simp at h
  | cons b bs ih =>
    cases i with
    | zero => rfl
    | succ j => exact ih j (by simpa using h)

theorem list_get?_set_ne {α : Type} (l : List α) (i j : Nat) (a : α)
    (h : i ≠ j) : (l.set i a).get? j = l.get? j := by
  induction l generalizing i j with
  | nil => simp
  | cons b bs ih =>
    cases i with
    | zero =>
      cases j with
      | zero => exact absurd rfl h
      | succ k => rfl
    | succ i' =>
      cases j with
      | zero => rfl
      | succ k => exact ih i' k fun hx => h (by rw [hx])

theorem list_get?_replicate {α : Type} (n i : Nat) (a : α) (h : i < n) :
    (List.replicate n a).get? i = some a := by
  induction n generalizing i with
  | zero => omega
  | succ m ih =>
    cases i with
    | zero => rfl
    | succ j => exact ih j (by omega)

theorem nodup_bounded_length_le (l : List Nat) (n : Nat) (hnd : l.Nodup)
    (hb : ∀ x ∈ l, x < n) : l.length ≤ n := by
  have h1 : l.toFinset ⊆ Finset.range n := by
    intro x hx
    rw [List.mem_toFinset] at hx
    exact Finset.mem_range.mpr (hb x hx)
  have h2 := Finset.card_le_card h1
  rw [List.toFinset_card_of_nodup hnd, Finset.card_range] at h2
  exact h2

theorem release_out_of_range (pool : EventBufferPool) (i : Nat)
    (h : pool.capacity ≤ i) : event_buffer_pool_release pool i = pool := by
  unfold event_buffer_pool_release
  rw [if_pos h]

theorem release_no_slot (pool : EventBufferPool) (i : Nat)
    (hcap : ¬pool.capacity ≤ i) (hget : pool.events.get? i = none) :
    event_buffer_pool_release pool i = pool := by
  unfold event_buffer_pool_release
  rw [if_neg hcap, hget]

theorem release_not_in_use (pool : EventBufferPool) (i : Nat) (e : PooledEvent)
    (hcap : ¬pool.capacity ≤ i) (hget : pool.events.get? i = some e)
    (hu : e.in_use = false) :
    event_buffer_pool_release pool i = pool := by
  unfold event_buffer_pool_release
  rw [if_neg hcap, hget]
  exact if_pos hu

theorem release_in_use (pool : EventBufferPool) (i : Nat) (e : PooledEvent)
    (hcap : ¬pool.capacity ≤ i) (hget : pool.events.get? i = some e)
    (hu : e.in_use = true) :
    event_buffer_pool_release pool i =
      { pool with
        events := pool.events.set i zeroedEvent,
        free_list := i :: pool.free_list,
        in_use_count := pool.in_use_count - 1 } := by
  unfold event_buffer_pool_release
  rw [if_neg hcap, hget]
  exact if_neg (by rw [hu]; exact fun hx => Bool.false_ne_true hx.symm)

theorem poolWF_create (capacity : Nat) :
    PoolWF (event_buffer_pool_create capacity) := by
  unfold event_buffer_pool_create PoolWF
  refine ⟨by simp, ?_, ?_, ?_, by simp⟩
  · exact List.nodup_reverse.mpr (List.nodup_range _)
  · intro i hi
    rw [List.mem_reverse] at hi
    exact List.mem_range.mp hi
  · intro i hi
    simp only [List.mem_range] at hi
    rw [list_get?_replicate _ i zeroedEvent hi]
    exact iff_of_true rfl (List.mem_reverse.mpr (List.mem_range.mpr hi))

theorem poolWF_acquire (pool : EventBufferPool) (i : Nat) (pool' : EventBufferPool)
    (wf : PoolWF pool) (h : event_buffer_pool_acquire pool = some (i, pool')) :
    pool'.events.get? i = some { zeroedEvent with in_use := true } ∧ PoolWF pool' := by
  obtain ⟨hlen, hnd, hbound, hiff, hcount⟩ := wf
  unfold event_buffer_pool_acquire at h
  cases hfl : pool.free_list with
  | nil => rw [hfl] at h; exact absurd h (by simp)
  | cons j rest =>
    rw [hfl] at h
    simp only [Option.some.injEq, Prod.mk.injEq] at h
    obtain ⟨rfl, rfl⟩ := h
    have hnd' := hfl ▸ hnd
    have hj : j < pool.capacity := hbound j (by rw [hfl]; exact List.mem_cons_self j rest)
    refine ⟨list_get?_set_self _ j _ (by rw [hlen]; exact hj), ?_, ?_, ?_, ?_, ?_⟩
    · simpa using hlen
    · exact (List.nodup_cons.mp hnd').2
    · intro x hx
      exact hbound x (by rw [hfl]; exact List.mem_cons_of_mem j hx)
    · intro x hx
      simp only [List.mem_range] at hx
      by_cases hxj : x = j
      · subst hxj
        rw [list_get?_set_self _ x _ (by rw [hlen]; exact hj)]
        refine iff_of_false ?_ (List.nodup_cons.mp hnd').1
        intro hfalse
        exact Bool.false_ne_true hfalse.symm
      · rw [list_get?_set_ne _ j x _ fun hx2 => hxj hx2.symm]
        have hold := hiff x (List.mem_range.mpr hx)
        rw [hfl] at hold
        rw [hold, List.mem_cons]
        exact or_iff_right hxj
    · rw [hfl] at hcount
      simp only [List.length_cons] at hcount
      simpa using by omega
  -- capacity bookkeeping is part of the record updates above

theorem acquire_capacity (pool : EventBufferPool) (i : Nat) (pool' : EventBufferPool)
    (h : event_buffer_pool_acquire pool = some (i, pool')) :
    pool'.capacity = pool.capacity := by
  unfold event_buffer_pool_acquire at h
  cases hfl : pool.free_list with
  | nil => rw [hfl] at h; exact absurd h (by simp)
  | cons j rest =>
    rw [hfl] at h
    simp only [Option.some.injEq, Prod.mk.injEq] at h
    obtain ⟨rfl, rfl⟩ := h
    rfl

theorem release_capacity (pool : EventBufferPool) (i : Nat) :
    (event_buffer_pool_release pool i).capacity = pool.capacity := by
  unfold event_buffer_pool_release
  split
  · rfl
  · split
    · rfl
    · split
      · rfl
      · rfl

theorem poolWF_release (pool : EventBufferPool) (i : Nat) (wf : PoolWF pool) :
    PoolWF (event_buffer_pool_release pool i) := by
  obtain ⟨hlen, hnd, hbound, hiff, hcount⟩ := wf
  by_cases hcap : pool.capacity ≤ i
  · rw [release_out_of_range pool i hcap]
    exact ⟨hlen, hnd, hbound, hiff, hcount⟩
  · cases hget : pool.events.get? i with
    | none =>
      rw [release_no_slot pool i hcap hget]
      exact ⟨hlen, hnd, hbound, hiff, hcount⟩
    | some e =>
      by_cases hu : e.in_use = false
      · rw [release_not_in_use pool i e hcap hget hu]
        exact ⟨hlen, hnd, hbound, hiff, hcount⟩
      · have hu' : e.in_use = true := by
          cases hx : e.in_use
          · exact absurd hx hu
          · rfl
        rw [release_in_use pool i e hcap hget hu']
        have hi : i < pool.capacity := by omega
        have hnotmem : i ∉ pool.free_list := by
          intro hmem
          have hx := hiff i (List.mem_range.mpr hi)
          rw [hget] at hx
          simp only [Option.getD_some] at hx
          rw [hu'] at hx
          exact Bool.false_ne_true (hx.mpr hmem).symm
        have hndcons : (i :: pool.free_list).Nodup := List.nodup_cons.mpr ⟨hnotmem, hnd⟩
        have hboundcons : ∀ x ∈ i :: pool.free_list, x < pool.capacity := by
          intro x hx
          rcases List.mem_cons.mp hx with rfl | hx2
          · exact hi
          · exact hbound x hx2
        refine ⟨by simpa using hlen, hndcons, hboundcons, ?_, ?_⟩
        · intro x hx
          simp only [List.mem_range] at hx
          by_cases hxi : x = i
          · subst hxi
            rw [list_get?_set_self _ x _ (by rw [hlen]; exact hi)]
            exact iff_of_true rfl (List.mem_cons_self x pool.free_list)
          · rw [list_get?_set_ne _ i x _ fun hx2 => hxi hx2.symm]
            have hold := hiff x (List.mem_range.mpr hx)
            rw [hold, List.mem_cons]
            exact (or_iff_right hxi).symm
        · have hlenfl : (i :: pool.free_list).length ≤ pool.capacity :=
            nodup_bounded_length_le _ _ hndcons hboundcons
          simp only [List.length_cons] at hlenfl ⊢
          omega

theorem runPoolOps_wf (ops : List PoolOp) (pool : EventBufferPool)
    (wf : PoolWF pool) : PoolWF (runPoolOps pool ops) := by
  induction ops generalizing pool with
  | nil => exact wf
  | cons op rest ih =>
    cases op with
    | acq =>
      simp only [runPoolOps]
      cases hacq : event_buffer_pool_acquire pool with
      | none => exact ih pool wf
      | some x =>
        obtain ⟨i, pool'⟩ := x
        exact ih pool' (poolWF_acquire pool i pool' wf hacq).2
    | rel i =>
      simp only [runPoolOps]
      exact ih _ (poolWF_release pool i wf)

theorem runPoolOps_capacity (ops : List PoolOp) (pool : EventBufferPool) :
    (runPoolOps pool ops).capacity = pool.capacity := by
  induction ops generalizing pool with
  | nil => rfl
  | cons op rest ih =>
    cases op with
    | acq =>
      simp only [runPoolOps]
      cases hacq : event_buffer_pool_acquire pool with
      | none => exact ih pool
      | some x =>
        obtain ⟨i, pool'⟩ := x
        rw [ih pool']
        exact acquire_capacity pool i pool' hacq
    | rel i =>
      simp only [runPoolOps]
      rw [ih _]
      exact release_capacity pool i

/-! ## Claim C5: event pool lifecycle -/

/-- Claim C5: the pool lifecycle contract holds under every acquire/release
sequence: `in_use_count` never exceeds capacity; a successful acquire hands
out a zeroed record marked in use (and preserves the pool invariant); an
exhausted pool (empty free list) yields nothing; releasing an in-use record
zeroes it — all owned strings freed, `in_use` false — and decrements the
counter; and the concrete capacity-3 scenario of the spec: three acquires
succeed, the fourth returns nothing, after one release the next acquire
succeeds, and after all releases `in_use_count = 0`. -/
theorem claim_C5_pool_lifecycle :
    (∀ (capacity : Nat) (ops : List PoolOp),
      (runPoolOps (event_buffer_pool_create capacity) ops).in_use_count ≤
        (event_buffer_pool_create capacity).capacity) ∧
    (∀ (pool : EventBufferPool) (i : Nat) (pool' : EventBufferPool),
      PoolWF pool → event_buffer_pool_acquire pool = some (i, pool') →
      pool'.events.get? i = some { zeroedEvent with in_use := true } ∧
        PoolWF pool') ∧
    (∀ pool : EventBufferPool, pool.free_list = [] →
      event_buffer_pool_acquire pool = none) ∧
    (∀ (pool : EventBufferPool) (i : Nat) (e : PooledEvent),
      PoolWF pool → pool.events.get? i = some e → e.in_use = true →
      (event_buffer_pool_release pool i).events.get? i = some zeroedEvent ∧
        (event_buffer_pool_release pool i).in_use_count = pool.in_use_count - 1 ∧
        PoolWF (event_buffer_pool_release pool i)) ∧
    ((event_buffer_pool_acquire (event_buffer_pool_create 3)).isSome = true ∧
     (event_buffer_pool_acquire
       (runPoolOps (event_buffer_pool_create 3) [.acq])).isSome = true ∧
     (event_buffer_pool_acquire
       (runPoolOps (event_buffer_pool_create 3) [.acq, .acq])).isSome = true ∧
     event_buffer_pool_acquire
       (runPoolOps (event_buffer_pool_create 3) [.acq, .acq, .acq]) = none ∧
     (event_buffer_pool_acquire
       (runPoolOps (event_buffer_pool_create 3)
         [.acq, .acq, .acq, .rel 1])).isSome = true ∧
     (runPoolOps (event_buffer_pool_create 3)
       [.acq, .acq, .acq, .rel 2, .rel 1, .rel 0]).in_use_count = 0) := by
  refine ⟨?_, ?_, ?_, ?_, by decide⟩
  · intro capacity ops
    have wf := runPoolOps_wf ops _ (poolWF_create capacity)
    obtain ⟨-, -, -, -, hcount⟩ := wf
    have hcap := runPoolOps_capacity ops (event_buffer_pool_create capacity)
    omega
  · exact poolWF_acquire
  · intro pool hfl
    unfold event_buffer_pool_acquire
    rw [hfl]
  · intro pool i e wf hget hu
    have hl : i < pool.events.length := by
      by_contra hx
      rw [List.get?_eq_none.mpr (by omega)] at hget
      exact absurd hget (by simp)
    have hlen := wf.1
    have hcap : ¬pool.capacity ≤ i := by omega
    refine ⟨?_, ?_, poolWF_release pool i wf⟩
    · rw [release_in_use pool i e hcap hget hu]
      exact list_get?_set_self _ _ _ hl
    · rw [release_in_use pool i e hcap hget hu]

/-- Claim C5 witness: the acquire clause applied to a fresh capacity-2 pool
(slot 1 is handed out zeroed and in use), and the release clause applied to
the resulting pool (slot 1 returns to the all-zero state). -/
theorem claim_C5_witness :
    ({ events := [zeroedEvent, { zeroedEvent with in_use := true }],
       capacity := 2, in_use_count := 1,
       free_list := [0] } : EventBufferPool).events.get? 1 =
      some { zeroedEvent with in_use := true } ∧
    (event_buffer_pool_release
      { events := [zeroedEvent, { zeroedEvent with in_use := true }],
        capacity := 2, in_use_count := 1, free_list := [0] } 1).events.get? 1 =
      some zeroedEvent :=
  ⟨(claim_C5_pool_lifecycle.2.1 (event_buffer_pool_create 2) 1 _ (by decide)
      (by decide)).1,
   (claim_C5_pool_lifecycle.2.2.2.1 _ 1 { zeroedEvent with in_use := true }
      (by decide) (by decide) rfl).1⟩

/-! ## Claim C10: rejected releases leave the pool unchanged -/

/-- Claim C10: a rejected release leaves the pool unchanged.  Releasing an
index outside the storage array, or a slot whose `in_use` flag is false
(double release), returns the pool exactly as it was: free list,
`in_use_count` and every slot untouched. -/
theorem claim_C10_rejected_release_noop :
    (∀ (pool : EventBufferPool) (i : Nat), pool.capacity ≤ i →
      event_buffer_pool_release pool i = pool) ∧
    (∀ (pool : EventBufferPool) (i : Nat) (e : PooledEvent),
      pool.events.get? i = some e → e.in_use = false →
      event_buffer_pool_release pool i = pool) := by
  refine ⟨release_out_of_range, ?_⟩
  intro pool i e hget hu
  by_cases hcap : pool.capacity ≤ i
  · exact release_out_of_range pool i hcap
  · exact release_not_in_use pool i e hcap hget hu

/-- Claim C10 witness: releasing index 5 of a fresh capacity-2 pool (out of
range) and index 0 (not in use) both leave the pool exactly as created. -/
theorem claim_C10_witness :
    event_buffer_pool_release (event_buffer_pool_create 2) 5 =
      event_buffer_pool_create 2 ∧
    event_buffer_pool_release (event_buffer_pool_create 2) 0 =
      event_buffer_pool_create 2 :=
  ⟨claim_C10_rejected_release_noop.1 _ 5 (by decide),
   claim_C10_rejected_release_noop.2 _ 0 zeroedEvent (by decide) rfl⟩
